import Mathlib

/-!
Shallow embedding of `src/analyze_plot.py` (rain_analyze): the row parser
(`load_data`), the payload decoder (`decode_payload`) and the series
assembler (the sort of the merged samples in `main`), with theorems checking
the specification's claims about them.

Conventions of the embedding:
* Python strings are `List Char`; absolute timestamps are `Int` nanoseconds,
  the unit of pandas `Timestamp` and `Timedelta` arithmetic.
* The voltage arithmetic `v * 0.0125 + 1.0` is modelled exactly over `ℚ`.
* `DataFrame.sort_values` with a single key column is modelled by its
  documented contract: it returns a permutation of the rows that is
  non-decreasing in the key.  The default algorithm (`kind='quicksort'`) is
  not documented to be stable, so the contract fixes no order among rows with
  equal keys; statements quantify over the sort implementation.
-/

namespace RainAnalyze

/-- ASCII 34, the double-quote character removed by the cleaning step. -/
def dquote : Char := Char.ofNat 34

/-- ASCII 39, the single-quote character removed by the cleaning step. -/
def squote : Char := Char.ofNat 39

/-- Whitespace as stripped by Python `str.strip()` (ASCII part: space, tab,
LF, VT, FF, CR). -/
def isPySpace (c : Char) : Bool :=
  c.toNat == 32 || c.toNat == 9 || c.toNat == 10 ||
    c.toNat == 11 || c.toNat == 12 || c.toNat == 13

/-- Python `str.strip()`: remove whitespace from both ends. -/
def pyStrip (l : List Char) : List Char :=
  ((l.dropWhile isPySpace).reverse.dropWhile isPySpace).reverse

/-- Python `s.replace(ch, "")`: remove every occurrence of one character. -/
def removeChar (ch : Char) (l : List Char) : List Char :=
  l.filter (fun x => x != ch)

/-- The cleaning of one field in `load_data`, line 28 of the source:
strip surrounding whitespace, then remove double quotes, then single quotes. -/
def cleanField (p : List Char) : List Char :=
  removeChar squote (removeChar dquote (pyStrip p))

/-- Does the first list occur at the start of the second? -/
def startsWithSeq : List Char → List Char → Bool
  | [], _ => true
  | _ :: _, [] => false
  | a :: as, b :: bs => a == b && startsWithSeq as bs

/-- Python substring containment `needle in hay`. -/
def hasSub (needle : List Char) : List Char → Bool
  | [] => startsWithSeq needle []
  | c :: t => startsWithSeq needle (c :: t) || hasSub needle t

/-- A parsed CSV row `[data_str, device_id, timestamp]` as appended by
`load_data`. -/
structure RawRow where
  data : List Char
  deviceId : List Char
  timestampRaw : List Char
deriving DecidableEq, Repr

/-- The cleaned fields of one raw line: strip the line, split on semicolons,
clean each field. -/
def cleanedParts (line : List Char) : List (List Char) :=
  ((pyStrip line).splitOn ';').map cleanField

/-- Handling of one line in the read loop of `load_data`: `none` when the line
is skipped (blank, fewer than 4 cleaned fields, or header detection by
content), `some row` when `[data_str, device_id, timestamp]` is kept. -/
def parseLine (line : List Char) : Option RawRow :=
  let l := pyStrip line
  if l.isEmpty then none
  else
    let cp := cleanedParts line
    if 4 ≤ cp.length then
      let dataStr := cp.headD []
      let deviceId := cp.getD 1 []
      let timestamp := cp.getLastD []
      if hasSub ("Data").toList dataStr && hasSub ("Timestamp").toList timestamp then
        none
      else
        some ⟨dataStr, deviceId, timestamp⟩
    else none

/-- The row parser `load_data`: file access elided, the input is the list of
lines of the file. -/
def load_data (lines : List (List Char)) : List RawRow :=
  lines.filterMap parseLine

/-- Is the character one of `0-9a-fA-F`, kept by the normalizing regex?
In ASCII codes: 48..57, 97..102, 65..70. -/
def isHexChar (c : Char) : Bool :=
  decide (48 ≤ c.toNat ∧ c.toNat ≤ 57) ||
    decide (97 ≤ c.toNat ∧ c.toNat ≤ 102) ||
    decide (65 ≤ c.toNat ∧ c.toNat ≤ 70)

/-- Value of one hex digit as read by Python `int(_, 16)`; characters that are
not hex digits (never present after normalization) count as 0. -/
def hexDigitVal (c : Char) : Nat :=
  if 48 ≤ c.toNat ∧ c.toNat ≤ 57 then c.toNat - 48
  else if 97 ≤ c.toNat ∧ c.toNat ≤ 102 then c.toNat - 87
  else if 65 ≤ c.toNat ∧ c.toNat ≤ 70 then c.toNat - 55
  else 0

/-- The normalizing substitution on the data field: keep only hex digits. -/
def normalizeHex (l : List Char) : List Char :=
  l.filter isHexChar

/-- Python `int(s, 16)` on an all-hex string: big-endian base-16 value. -/
def hexNat (l : List Char) : Nat :=
  l.foldl (fun a c => 16 * a + hexDigitVal c) 0

/-- Python slice `s[a:b]` for `a ≤ b`. -/
def slice (l : List Char) (a b : Nat) : List Char :=
  (l.drop a).take (b - a)

/-- One decoded sample record, as appended to `extracted_data` in
`decode_payload`. -/
structure Sample where
  timestamp : Int
  distanceMm : Nat
  voltageV : ℚ
  batteryPct : Nat
  deviceId : List Char
deriving DecidableEq, Repr

instance : Inhabited Sample := ⟨⟨0, 0, 0, 0, []⟩⟩

/-- Nanoseconds in `pd.Timedelta(minutes=m)`. -/
def minutesNs (m : Int) : Int := m * 60000000000

/-- A row after timestamp normalization: the raw timestamp replaced by a
successfully parsed absolute instant. -/
structure NRow where
  data : List Char
  deviceId : List Char
  timestamp : Int
deriving DecidableEq, Repr

/-- `decode_payload`: decode the hex payload of one normalized row into five
time-shifted samples, or zero samples when fewer than 24 hex characters
remain after normalization. -/
def decode_payload (row : NRow) : List Sample :=
  let s := normalizeHex row.data
  if s.length < 24 then []
  else
    let voltVal := hexNat (slice s 0 2)
    let voltage : ℚ := (voltVal : ℚ) * 0.0125 + 1.0
    let battPct := hexNat (slice s 2 4)
    (List.range 5).map (fun (i : Nat) =>
      let startIdx := 4 + i * 4
      let endIdx := startIdx + 4
      let distanceMm := hexNat (slice s startIdx endIdx)
      let recordTime := row.timestamp - minutesNs ((i : Int) * 2)
      { timestamp := recordTime
        distanceMm := distanceMm
        voltageV := voltage
        batteryPct := battPct
        deviceId := row.deviceId })

/-- The sample built for history index `i` of a row: the body of the
`for i in range(5)` loop of `decode_payload`. -/
def mkSample (row : NRow) (i : Nat) : Sample :=
  { timestamp := row.timestamp - minutesNs ((i : Int) * 2)
    distanceMm := hexNat (slice (normalizeHex row.data) (4 + i * 4) (4 + i * 4 + 4))
    voltageV := (hexNat (slice (normalizeHex row.data) 0 2) : ℚ) * 0.0125 + 1.0
    batteryPct := hexNat (slice (normalizeHex row.data) 2 4)
    deviceId := row.deviceId }

theorem decode_payload_eq (row : NRow)
    (h : ¬ (normalizeHex row.data).length < 24) :
    decode_payload row =
      [mkSample row 0, mkSample row 1, mkSample row 2, mkSample row 3,
        mkSample row 4] := by
  unfold decode_payload mkSample
  rw [if_neg h]
  rfl

/-- The expansion loop of `main`: decode every normalized row and concatenate
the per-row sample batches in row order. -/
def decodeAll (rows : List NRow) : List Sample :=
  rows.flatMap decode_payload

/-- Timestamp order on samples: the key comparison of
`sort_values` on the decoded-sample column. -/
def tsLE (a b : Sample) : Prop := a.timestamp ≤ b.timestamp

instance : DecidableRel tsLE :=
  fun a b => inferInstanceAs (Decidable (a.timestamp ≤ b.timestamp))

instance : IsTotal Sample tsLE := ⟨fun a b => Int.le_total a.timestamp b.timestamp⟩

instance : IsTrans Sample tsLE := ⟨fun _ _ _ h h2 => le_trans h h2⟩

/-- Documented contract of `DataFrame.sort_values` on the timestamp column:
the output is a permutation of the input that is non-decreasing in the key.
The default algorithm, `kind=quicksort`, is not documented to be stable, so
the contract fixes no order among rows with equal keys. -/
def SortsByTimestamp (f : List Sample → List Sample) : Prop :=
  ∀ l : List Sample, (f l).Perm l ∧ List.Sorted tsLE (f l)

/-- The series assembler of `main` with the `sort_values` implementation as a
parameter: decode all rows, then sort the merged samples by timestamp. -/
def assembleWith (f : List Sample → List Sample) (rows : List NRow) : List Sample :=
  f (decodeAll rows)

/-- The parse, normalize, decode and sort stages of `main` (the plot is
elided).  The timestamp normalizer `pd.to_datetime` with `utc=True` is an
external service, passed in as `tsParse`; rows whose raw timestamp fails to
parse are dropped, as by `dropna`. -/
def runPipeline (f : List Sample → List Sample) (tsParse : List Char → Option Int)
    (lines : List (List Char)) : List Sample :=
  assembleWith f ((load_data lines).filterMap
    (fun r => (tsParse r.timestampRaw).map (fun t => NRow.mk r.data r.deviceId t)))

/-- The stable reference sort by timestamp: insertion sort keeps the original
relative order of samples with equal timestamps. -/
def stableSortByTs (l : List Sample) : List Sample :=
  List.insertionSort tsLE l

/-- A sort implementation that also meets the `sort_values` contract but
reverses the relative order of samples with equal timestamps. -/
def badSort (l : List Sample) : List Sample :=
  List.insertionSort tsLE l.reverse

theorem stableSortByTs_sorts : SortsByTimestamp stableSortByTs :=
  fun l => ⟨List.perm_insertionSort tsLE l, List.sorted_insertionSort tsLE l⟩

theorem badSort_sorts : SortsByTimestamp badSort :=
  fun l =>
    ⟨(List.perm_insertionSort tsLE l.reverse).trans (List.reverse_perm l),
      List.sorted_insertionSort tsLE l.reverse⟩

theorem headD_mem {α : Type} [Inhabited α] (l : List α) (h : l ≠ []) :
    l.headD default ∈ l := by
  cases l with
  | nil => exact absurd rfl h
  | cons a t => simp

theorem hexDigitVal_lt (c : Char) : hexDigitVal c < 16 := by
  unfold hexDigitVal
  split_ifs with h1 h2 h3 <;> omega

theorem hexNat_foldl_lt (l : List Char) :
    ∀ a : Nat, l.foldl (fun a c => 16 * a + hexDigitVal c) a < 16 ^ l.length * (a + 1) := by
  induction l with
  | nil => intro a; simp
  | cons c t ih =>
    intro a
    have hd := hexDigitVal_lt c
    have h1 := ih (16 * a + hexDigitVal c)
    have h2 : 16 ^ t.length * (16 * a + hexDigitVal c + 1) ≤
        16 ^ (c :: t).length * (a + 1) := by
      have : 16 * a + hexDigitVal c + 1 ≤ 16 * (a + 1) := by omega
      calc 16 ^ t.length * (16 * a + hexDigitVal c + 1)
          ≤ 16 ^ t.length * (16 * (a + 1)) := Nat.mul_le_mul_left _ this
        _ = 16 ^ (c :: t).length * (a + 1) := by
            simp [List.length_cons, pow_succ]; ring
    exact lt_of_lt_of_le h1 h2

theorem hexNat_lt (l : List Char) : hexNat l < 16 ^ l.length := by
  simpa using hexNat_foldl_lt l 0

theorem hexNat_slice_lt (l : List Char) (a b : Nat) :
    hexNat (slice l a b) < 16 ^ (b - a) := by
  have h := hexNat_lt (slice l a b)
  have hlen : (slice l a b).length ≤ b - a := by
    simp [slice]
  exact lt_of_lt_of_le h (Nat.pow_le_pow_right (by norm_num) hlen)

theorem mem_decode_payload {row : NRow} {s : Sample} (hs : s ∈ decode_payload row) :
    ∃ i : Nat, i < 5 ∧ s = mkSample row i := by
  by_cases h : (normalizeHex row.data).length < 24
  · simp [decode_payload, h] at hs
  · rw [decode_payload_eq row h] at hs
    simp only [List.mem_cons, List.not_mem_nil, or_false] at hs
    rcases hs with h0 | h1 | h2 | h3 | h4
    exacts [⟨0, by omega, h0⟩, ⟨1, by omega, h1⟩, ⟨2, by omega, h2⟩,
      ⟨3, by omega, h3⟩, ⟨4, by omega, h4⟩]

/-- The worked example payload of the specification. -/
def c7hex : List Char := ("64320064012C01F401900258").toList

/-- A normalized row carrying the example payload. -/
def exRow : NRow := ⟨c7hex, ("1F06AD2").toList, 1000000000000⟩

/-- A normalized row whose battery byte is FF. -/
def battRow : NRow := ⟨("00FF00000000000000000000").toList, ("1F06AD2").toList, 0⟩

/-- A normalized row whose voltage byte is 00 and whose distances are
1, 2, 3, 4, 5 mm. -/
def rowA : NRow := ⟨("000000010002000300040005").toList, ("1F06AD2").toList, 1000000000000⟩

/-- A normalized row with the same timestamp as `rowA` and distances
17, 18, 19, 20, 21 mm: its samples tie with those of `rowA` on timestamp. -/
def rowB : NRow := ⟨("000000110012001300140015").toList, ("1F06AD2").toList, 1000000000000⟩

/-- A normalized row whose voltage byte is C8 (decimal 200). -/
def voltRowC8 : NRow := ⟨("C80000000000000000000000").toList, ("1F06AD2").toList, 0⟩

/-- A normalized row whose data field keeps only 6 hex characters. -/
def shortRow : NRow := ⟨("12-34:ab").toList, ("1F06AD2").toList, 0⟩

/-- Claim C1 (amended): for every sort implementation satisfying the pandas
`sort_values` contract and every list of normalized rows, the assembled
series is a permutation of the merged decoded samples that is non-decreasing
(sorted ascending) in timestamp.  The original claim further asserted that
the original row order is preserved on equal timestamps; the contract of the
default `kind=quicksort` does not provide that, see `C1_counterexample`. -/
theorem C1_sorted_merge (f : List Sample → List Sample) (hf : SortsByTimestamp f)
    (rows : List NRow) :
    (assembleWith f rows).Perm (decodeAll rows) ∧
    List.Sorted tsLE (assembleWith f rows) :=
  hf (decodeAll rows)

theorem C1_witness :
    (assembleWith stableSortByTs [rowA, rowB]).Perm (decodeAll [rowA, rowB]) ∧
    List.Sorted tsLE (assembleWith stableSortByTs [rowA, rowB]) :=
  C1_sorted_merge stableSortByTs stableSortByTs_sorts [rowA, rowB]

/-- Claim C1 (counterexample to stability as stated): a sort implementation
meeting the `sort_values` contract under which the series assembled from two
rows with equal timestamps differs from the stable result that preserves the
original row order on ties. -/
theorem C1_counterexample :
    SortsByTimestamp badSort ∧
    assembleWith badSort [rowA, rowB] ≠ stableSortByTs (decodeAll [rowA, rowB]) :=
  ⟨badSort_sorts, fun hcontra =>
    absurd (congrArg (fun l => (l.headD default).distanceMm) hcontra) (by decide)⟩

/-- Claim C2: a row whose normalized hex payload has at least 24 hex
characters (its timestamp being a parsed instant, inherent in `NRow`)
decodes to exactly 5 samples; sample `i` has timestamp equal to the row
timestamp minus `i * 2` minutes, all five samples share one voltage, one
battery percentage and the row's device ID, and consecutive samples are
strictly decreasing in timestamp with exactly 2-minute spacing, newest
first. -/
theorem C2_five_samples (row : NRow) (h : 24 ≤ (normalizeHex row.data).length) :
    (decode_payload row).length = 5 ∧
    (∀ i : Nat, i < 5 →
      ((decode_payload row).getD i default).timestamp
          = row.timestamp - minutesNs ((i : Int) * 2) ∧
      ((decode_payload row).getD i default).voltageV
          = ((decode_payload row).getD 0 default).voltageV ∧
      ((decode_payload row).getD i default).batteryPct
          = ((decode_payload row).getD 0 default).batteryPct ∧
      ((decode_payload row).getD i default).deviceId = row.deviceId) ∧
    (∀ i : Nat, i < 4 →
      ((decode_payload row).getD (i + 1) default).timestamp + minutesNs 2
          = ((decode_payload row).getD i default).timestamp ∧
      ((decode_payload row).getD (i + 1) default).timestamp
          < ((decode_payload row).getD i default).timestamp) := by
  have he := decode_payload_eq row (by omega)
  rw [he]
  refine ⟨rfl, ?_, ?_⟩
  · intro i hi
    interval_cases i <;> exact ⟨rfl, rfl, rfl, rfl⟩
  · intro i hi
    interval_cases i <;>
      constructor <;> simp [mkSample, minutesNs] <;> omega

theorem C2_witness : (decode_payload exRow).length = 5 :=
  (C2_five_samples exRow (by decide)).1

/-- Claim C3 (amended): every sample the payload decoder produces has a
battery percentage between 0 and 255: it is the raw second payload byte,
taken as-is and not clamped or validated to 100. -/
theorem C3_battery_byte (row : NRow) (s : Sample) (hs : s ∈ decode_payload row) :
    s.batteryPct ≤ 255 := by
  obtain ⟨i, -, rfl⟩ := mem_decode_payload hs
  have h : hexNat (slice (normalizeHex row.data) 2 4) < 256 := by
    have h0 := hexNat_slice_lt (normalizeHex row.data) 2 4
    norm_num at h0
    exact h0
  simp only [mkSample]
  omega

theorem C3_witness : ((decode_payload battRow).headD default).batteryPct ≤ 255 :=
  C3_battery_byte battRow _ (headD_mem _ (by decide))

/-- Claim C3 (counterexample): the payload whose battery byte is FF produces
a sample whose battery percentage is 255, not between 0 and 100. -/
theorem C3_counterexample :
    (decode_payload battRow).headD default ∈ decode_payload battRow ∧
    ¬ ((decode_payload battRow).headD default).batteryPct ≤ 100 :=
  ⟨headD_mem _ (by decide), by decide⟩

/-- Claim C6: a payload keeping fewer than 24 hex characters after removing
every character outside 0-9a-fA-F decodes to zero samples (the empty list),
with no error. -/
theorem C6_short_payload (row : NRow) (h : (normalizeHex row.data).length < 24) :
    decode_payload row = [] := by
  simp [decode_payload, h]

theorem C6_witness : decode_payload shortRow = [] :=
  C6_short_payload shortRow (by decide)

/-- Claim C8: the decoded voltage is the linear function of the first payload
byte value v given by v * 0.0125 + 1.0 volts, for every decoded sample; in
particular raw byte 0 gives 1.0 V and raw byte 200 (hex C8) gives 3.5 V. -/
theorem C8_voltage :
    (∀ (row : NRow), ∀ s ∈ decode_payload row,
      s.voltageV = (hexNat (slice (normalizeHex row.data) 0 2) : ℚ) * 0.0125 + 1.0) ∧
    (∀ s ∈ decode_payload rowA, s.voltageV = 1.0) ∧
    (∀ s ∈ decode_payload voltRowC8, s.voltageV = 3.5) := by
  have hgen : ∀ (row : NRow), ∀ s ∈ decode_payload row,
      s.voltageV = (hexNat (slice (normalizeHex row.data) 0 2) : ℚ) * 0.0125 + 1.0 := by
    intro row s hs
    obtain ⟨i, -, rfl⟩ := mem_decode_payload hs
    rfl
  refine ⟨hgen, ?_, ?_⟩
  · intro s hs
    rw [hgen rowA s hs, show hexNat (slice (normalizeHex rowA.data) 0 2) = 0 from by decide]
    norm_num
  · intro s hs
    rw [hgen voltRowC8 s hs,
      show hexNat (slice (normalizeHex voltRowC8.data) 0 2) = 200 from by decide]
    norm_num

theorem C8_witness : ((decode_payload voltRowC8).headD default).voltageV = 3.5 :=
  C8_voltage.2.2 _ (headD_mem _ (by decide))

/-- Claim C9: the parse-decode-sort pipeline is deterministic: with the same
sort implementation and the same timestamp parser, two runs on equal inputs
produce identical assembled series; nothing outside these inputs (wall-clock
time in particular) enters the result. -/
theorem C9_deterministic (f : List Sample → List Sample)
    (tsParse : List Char → Option Int) (lines lines2 : List (List Char))
    (h : lines = lines2) :
    runPipeline f tsParse lines = runPipeline f tsParse lines2 := by
  rw [h]

theorem C9_witness :
    runPipeline stableSortByTs (fun _ => some 0) [c7hex] =
      runPipeline stableSortByTs (fun _ => some 0) [c7hex] :=
  C9_deterministic stableSortByTs (fun _ => some 0) [c7hex] [c7hex] rfl

theorem head?_dropWhile_not (p : Char → Bool) (l : List Char) (c : Char)
    (hc : (l.dropWhile p).head? = some c) : p c = false := by
  induction l with
  | nil => exact Option.noConfusion hc
  | cons a t ih =>
    rw [List.dropWhile_cons] at hc
    by_cases h : p a
    · rw [if_pos h] at hc
      exact ih hc
    · rw [if_neg h] at hc
      simp only [List.head?_cons, Option.some.injEq] at hc
      rw [← hc]
      simp [h]

theorem pyStrip_eq (l : List Char) :
    pyStrip l = List.rdropWhile isPySpace (l.dropWhile isPySpace) := rfl

theorem pyStrip_getLast_not_space (l : List Char) (c : Char)
    (hc : (pyStrip l).getLast? = some c) : isPySpace c = false := by
  unfold pyStrip at hc
  rw [List.getLast?_reverse] at hc
  exact head?_dropWhile_not isPySpace _ c hc

theorem pyStrip_head_not_space (l : List Char) (c : Char)
    (hc : (pyStrip l).head? = some c) : isPySpace c = false := by
  obtain ⟨t, ht⟩ := List.rdropWhile_prefix isPySpace (l.dropWhile isPySpace)
  rw [pyStrip_eq] at hc
  have hm : (l.dropWhile isPySpace).head? = some c := by
    rw [← ht]
    cases hps : List.rdropWhile isPySpace (l.dropWhile isPySpace) with
    | nil => rw [hps] at hc; exact Option.noConfusion hc
    | cons a rs =>
      rw [hps] at hc
      simpa using hc
  exact head?_dropWhile_not isPySpace l c hm

theorem mem_pyStrip {c : Char} {l : List Char} (hc : c ∈ pyStrip l) : c ∈ l := by
  unfold pyStrip at hc
  rw [List.mem_reverse] at hc
  have h1 : c ∈ (l.dropWhile isPySpace).reverse :=
    (List.dropWhile_suffix isPySpace).sublist.subset hc
  rw [List.mem_reverse] at h1
  exact (List.dropWhile_suffix isPySpace).sublist.subset h1

/-- Claim C4 (amended): cleaning a field strips surrounding whitespace first
and removes the quote characters afterwards; so a cleaned field never
contains a single- or double-quote character, and when the original field
contains no quote character the cleaned field also retains no leading or
trailing whitespace.  (Whitespace that was enclosed in quotes can survive at
the ends, see the counterexample.) -/
theorem C4_clean (p : List Char) :
    (∀ c ∈ cleanField p, c ≠ dquote ∧ c ≠ squote) ∧
    ((∀ c ∈ p, c ≠ dquote ∧ c ≠ squote) →
      (∀ c, (cleanField p).head? = some c → isPySpace c = false) ∧
      (∀ c, (cleanField p).getLast? = some c → isPySpace c = false)) := by
  constructor
  · intro c hc
    simp only [cleanField, removeChar, List.mem_filter, bne_iff_ne] at hc
    exact ⟨hc.1.2, hc.2⟩
  · intro hq
    have hdq : (pyStrip p).filter (fun x => x != dquote) = pyStrip p :=
      List.filter_eq_self.mpr (fun a ha => bne_iff_ne.mpr (hq a (mem_pyStrip ha)).1)
    have hsq : (pyStrip p).filter (fun x => x != squote) = pyStrip p :=
      List.filter_eq_self.mpr (fun a ha => bne_iff_ne.mpr (hq a (mem_pyStrip ha)).2)
    have hid : cleanField p = pyStrip p := by
      unfold cleanField removeChar
      rw [hdq, hsq]
    rw [hid]
    exact ⟨pyStrip_head_not_space p, pyStrip_getLast_not_space p⟩

theorem C4_witness : isPySpace 'a' = false :=
  ((C4_clean [Char.ofNat 32, 'a', Char.ofNat 32]).2 (by decide)).1 'a' (by decide)

/-- The raw field made of a double quote, a space, the letter x and a double
quote. -/
def c4field : List Char := [dquote, Char.ofNat 32, 'x', dquote]

/-- Claim C4 (counterexample): on the field whose whitespace sits inside the
quotes, cleaning keeps the leading space, refuting the claim that no cleaned
field retains leading or trailing whitespace. -/
theorem C4_counterexample :
    cleanField c4field = [Char.ofNat 32, 'x'] ∧
    isPySpace ((cleanField c4field).headD 'x') = true := by
  decide

/-- Claim C5: among lines with at least 4 cleaned fields, a line is excluded
exactly when its first cleaned field contains the substring Data and its
last cleaned field contains the substring Timestamp; every line that is not
so excluded is accepted as the row made of its first field (data), its
second field (device ID) and its last field (timestamp). -/
theorem C5_header_rule (line : List Char) (h : 4 ≤ (cleanedParts line).length) :
    (parseLine line = none ↔
      (hasSub ("Data").toList ((cleanedParts line).headD []) = true ∧
        hasSub ("Timestamp").toList ((cleanedParts line).getLastD []) = true)) ∧
    (parseLine line = none ∨
      parseLine line = some ⟨(cleanedParts line).headD [],
        (cleanedParts line).getD 1 [], (cleanedParts line).getLastD []⟩) := by
  have hne : (pyStrip line).isEmpty = false := by
    cases hps : pyStrip line with
    | nil =>
      exfalso
      have h1 : cleanedParts line = [cleanField []] := by
        unfold cleanedParts
        rw [hps]
        rfl
      rw [h1] at h
      simp at h
    | cons a t => rfl
  have hpl : parseLine line =
      (if (hasSub ("Data").toList ((cleanedParts line).headD []) &&
            hasSub ("Timestamp").toList ((cleanedParts line).getLastD [])) = true
        then none
        else some ⟨(cleanedParts line).headD [], (cleanedParts line).getD 1 [],
          (cleanedParts line).getLastD []⟩) := by
    simp only [parseLine, hne, h, Bool.false_eq_true, if_false, if_true]
  rw [hpl]
  by_cases hc : (hasSub ("Data").toList ((cleanedParts line).headD []) &&
      hasSub ("Timestamp").toList ((cleanedParts line).getLastD [])) = true
  · rw [if_pos hc]
    rw [Bool.and_eq_true] at hc
    exact ⟨⟨fun _ => hc, fun _ => rfl⟩, Or.inl rfl⟩
  · rw [if_neg hc]
    rw [Bool.and_eq_true] at hc
    refine ⟨⟨fun h0 => Option.noConfusion h0, fun hcc => ?_⟩, Or.inr rfl⟩
    exact absurd hcc hc

/-- The header line of the CSV export, with its quoted fields. -/
def headerLine : List Char :=
  ("\"Data\";\"Device ID\";\"Sequence number\";\"Timestamp\"").toList

theorem C5_witness : parseLine headerLine = none :=
  ((C5_header_rule headerLine (by decide)).1).mpr (by decide)

theorem hexNat_four (c0 c1 c2 c3 : Char) :
    hexNat [c0, c1, c2, c3] =
      4096 * hexDigitVal c0 + 256 * hexDigitVal c1 + 16 * hexDigitVal c2 +
        hexDigitVal c3 := by
  simp only [hexNat, List.foldl]
  ring

theorem getD_drop (l : List Char) (a k : Nat) (c : Char) :
    (l.drop a).getD k c = l.getD (a + k) c := by
  rw [List.getD_eq_getElem?_getD, List.getD_eq_getElem?_getD, List.getElem?_drop]

theorem slice_four (l : List Char) (a : Nat) (h : a + 4 ≤ l.length) :
    slice l a (a + 4) =
      [l.getD a (Char.ofNat 48), l.getD (a + 1) (Char.ofNat 48),
        l.getD (a + 2) (Char.ofNat 48), l.getD (a + 3) (Char.ofNat 48)] := by
  have hg : ∀ k : Nat, l.getD (a + k) (Char.ofNat 48) = (l.drop a).getD k (Char.ofNat 48) :=
    fun k => (getD_drop l a k (Char.ofNat 48)).symm
  have hg0 : l.getD a (Char.ofNat 48) = (l.drop a).getD 0 (Char.ofNat 48) := by
    rw [getD_drop, Nat.add_zero]
  have hlen : 4 ≤ (l.drop a).length := by
    rw [List.length_drop]
    omega
  unfold slice
  have h4 : a + 4 - a = 4 := by omega
  rw [h4, hg0, hg 1, hg 2, hg 3]
  rcases hd : l.drop a with _ | ⟨x0, l1⟩
  · rw [hd] at hlen; simp at hlen
  rcases l1 with _ | ⟨x1, l2⟩
  · rw [hd] at hlen; simp at hlen
  rcases l2 with _ | ⟨x2, l3⟩
  · rw [hd] at hlen; simp at hlen
  rcases l3 with _ | ⟨x3, rest⟩
  · rw [hd] at hlen; simp at hlen
  rfl

theorem decode_getD (row : NRow) (h : ¬ (normalizeHex row.data).length < 24)
    (i : Nat) (hi : i < 5) :
    (decode_payload row).getD i default = mkSample row i := by
  rw [decode_payload_eq row h]
  interval_cases i <;> rfl

/-- Claim C7: each of the five distances is decoded from hex characters 4..23
of the normalized payload as a 4-hex-character big-endian unsigned integer in
millimeters, sample i (0-indexed, newest first) from characters 4+4i..7+4i;
and the example payload 64320064012C01F401900258 decodes to battery 50,
voltage 2.25 V, and distances 100, 300, 500, 400, 600 mm at 0, 2, 4, 6, 8
minutes before the row timestamp. -/
theorem C7_distances :
    (∀ (row : NRow), 24 ≤ (normalizeHex row.data).length → ∀ i : Nat, i < 5 →
      ((decode_payload row).getD i default).distanceMm =
        4096 * hexDigitVal ((normalizeHex row.data).getD (4 + i * 4) (Char.ofNat 48)) +
          256 * hexDigitVal ((normalizeHex row.data).getD (4 + i * 4 + 1) (Char.ofNat 48)) +
          16 * hexDigitVal ((normalizeHex row.data).getD (4 + i * 4 + 2) (Char.ofNat 48)) +
          hexDigitVal ((normalizeHex row.data).getD (4 + i * 4 + 3) (Char.ofNat 48))) ∧
    (∀ (t : Int) (dev : List Char),
      decode_payload ⟨c7hex, dev, t⟩ =
        [⟨t - minutesNs 0, 100, 2.25, 50, dev⟩,
          ⟨t - minutesNs 2, 300, 2.25, 50, dev⟩,
          ⟨t - minutesNs 4, 500, 2.25, 50, dev⟩,
          ⟨t - minutesNs 6, 400, 2.25, 50, dev⟩,
          ⟨t - minutesNs 8, 600, 2.25, 50, dev⟩]) := by
  constructor
  · intro row h i hi
    rw [decode_getD row (by omega) i hi]
    show hexNat (slice (normalizeHex row.data) (4 + i * 4) (4 + i * 4 + 4)) = _
    rw [slice_four (normalizeHex row.data) (4 + i * 4) (by omega), hexNat_four]
  · intro t dev
    have hlen : ¬ (normalizeHex (NRow.mk c7hex dev t).data).length < 24 := by
      show ¬ (normalizeHex c7hex).length < 24
      decide
    rw [decode_payload_eq ⟨c7hex, dev, t⟩ hlen]
    have hv : hexNat (slice (normalizeHex c7hex) 0 2) = 100 := by decide
    have hb : hexNat (slice (normalizeHex c7hex) 2 4) = 50 := by decide
    have hd0 : hexNat (slice (normalizeHex c7hex) (4 + 0 * 4) (4 + 0 * 4 + 4)) = 100 := by
      decide
    have hd1 : hexNat (slice (normalizeHex c7hex) (4 + 1 * 4) (4 + 1 * 4 + 4)) = 300 := by
      decide
    have hd2 : hexNat (slice (normalizeHex c7hex) (4 + 2 * 4) (4 + 2 * 4 + 4)) = 500 := by
      decide
    have hd3 : hexNat (slice (normalizeHex c7hex) (4 + 3 * 4) (4 + 3 * 4 + 4)) = 400 := by
      decide
    have hd4 : hexNat (slice (normalizeHex c7hex) (4 + 4 * 4) (4 + 4 * 4 + 4)) = 600 := by
      decide
    simp only [mkSample]
    rw [hv, hb, hd0, hd1, hd2, hd3, hd4]
    norm_num [Sample.mk.injEq, minutesNs]

theorem C7_witness :
    ((decode_payload exRow).getD 0 default).distanceMm =
      4096 * hexDigitVal ((normalizeHex exRow.data).getD (4 + 0 * 4) (Char.ofNat 48)) +
        256 * hexDigitVal ((normalizeHex exRow.data).getD (4 + 0 * 4 + 1) (Char.ofNat 48)) +
        16 * hexDigitVal ((normalizeHex exRow.data).getD (4 + 0 * 4 + 2) (Char.ofNat 48)) +
        hexDigitVal ((normalizeHex exRow.data).getD (4 + 0 * 4 + 3) (Char.ofNat 48)) :=
  C7_distances.1 exRow (by decide) 0 (by decide)

theorem slice_take (l : List Char) (a b n : Nat) (h : b ≤ n) :
    slice (l.take n) a b = slice l a b := by
  unfold slice
  rw [List.drop_take, List.take_take]
  congr 1
  omega

theorem normalize_take_lt (s1 s2 : List Char) (h : s1.take 24 = s2.take 24) :
    (s1.length < 24 ↔ s2.length < 24) := by
  have h1 := congrArg List.length h
  simp only [List.length_take] at h1
  omega

theorem mkSample_congr (r1 r2 : NRow) (i : Nat) (hi : i < 5)
    (hdev : r1.deviceId = r2.deviceId) (hts : r1.timestamp = r2.timestamp)
    (hsl : ∀ a b : Nat, b ≤ 24 →
      slice (normalizeHex r1.data) a b = slice (normalizeHex r2.data) a b) :
    mkSample r1 i = mkSample r2 i := by
  unfold mkSample
  rw [hdev, hts, hsl 0 2 (by omega), hsl 2 4 (by omega),
    hsl (4 + i * 4) (4 + i * 4 + 4) (by omega)]

/-- Claim C10 (implicit): every decoded sample has a distance of at most
65535 mm, a voltage between 1.0 and 4.1875 V and a battery percentage of at
most 255, each value being decoded from at most two payload bytes; and the
decoder's output depends only on the first 24 characters of the normalized
hex string: characters beyond the 24th are ignored. -/
theorem C10_ranges :
    (∀ (row : NRow), ∀ s ∈ decode_payload row,
      s.distanceMm ≤ 65535 ∧ 1.0 ≤ s.voltageV ∧ s.voltageV ≤ 4.1875 ∧
        s.batteryPct ≤ 255) ∧
    (∀ r1 r2 : NRow, r1.deviceId = r2.deviceId → r1.timestamp = r2.timestamp →
      (normalizeHex r1.data).take 24 = (normalizeHex r2.data).take 24 →
      decode_payload r1 = decode_payload r2) := by
  constructor
  · intro row s hs
    obtain ⟨i, hi, rfl⟩ := mem_decode_payload hs
    have hvolt : hexNat (slice (normalizeHex row.data) 0 2) < 256 := by
      have h0 := hexNat_slice_lt (normalizeHex row.data) 0 2
      norm_num at h0
      exact h0
    have hvolt2 : (hexNat (slice (normalizeHex row.data) 0 2) : ℚ) ≤ 255 := by
      exact_mod_cast Nat.lt_succ_iff.mp hvolt
    have hvolt0 : (0 : ℚ) ≤ (hexNat (slice (normalizeHex row.data) 0 2) : ℚ) :=
      Nat.cast_nonneg _
    refine ⟨?_, ?_, ?_, ?_⟩
    · have h0 := hexNat_slice_lt (normalizeHex row.data) (4 + i * 4) (4 + i * 4 + 4)
      have h4 : (4 + i * 4 + 4) - (4 + i * 4) = 4 := by omega
      rw [h4] at h0
      norm_num at h0
      simp only [mkSample]
      omega
    · show (1.0 : ℚ) ≤ (hexNat (slice (normalizeHex row.data) 0 2) : ℚ) * 0.0125 + 1.0
      nlinarith
    · show (hexNat (slice (normalizeHex row.data) 0 2) : ℚ) * 0.0125 + 1.0 ≤ 4.1875
      nlinarith
    · have h0 : hexNat (slice (normalizeHex row.data) 2 4) < 256 := by
        have h1 := hexNat_slice_lt (normalizeHex row.data) 2 4
        norm_num at h1
        exact h1
      simp only [mkSample]
      omega
  · intro r1 r2 hdev hts htake
    by_cases h : (normalizeHex r1.data).length < 24
    · have h2 : (normalizeHex r2.data).length < 24 :=
        (normalize_take_lt _ _ htake).mp h
      have e1 : decode_payload r1 = [] := by simp [decode_payload, h]
      have e2 : decode_payload r2 = [] := by simp [decode_payload, h2]
      rw [e1, e2]
    · have h2 : ¬ (normalizeHex r2.data).length < 24 :=
        fun hc => h ((normalize_take_lt _ _ htake).mpr hc)
      have hsl : ∀ a b : Nat, b ≤ 24 →
          slice (normalizeHex r1.data) a b = slice (normalizeHex r2.data) a b := by
        intro a b hb
        rw [← slice_take (normalizeHex r1.data) a b 24 hb,
          ← slice_take (normalizeHex r2.data) a b 24 hb, htake]
      rw [decode_payload_eq r1 h, decode_payload_eq r2 h2,
        mkSample_congr r1 r2 0 (by omega) hdev hts hsl,
        mkSample_congr r1 r2 1 (by omega) hdev hts hsl,
        mkSample_congr r1 r2 2 (by omega) hdev hts hsl,
        mkSample_congr r1 r2 3 (by omega) hdev hts hsl,
        mkSample_congr r1 r2 4 (by omega) hdev hts hsl]

/-- A normalized row whose payload is exactly 24 zeros. -/
def r24a : NRow := ⟨("000000000000000000000000").toList, ("1F06AD2").toList, 0⟩

/-- A normalized row whose payload is 25 zeros: it agrees with `r24a` on the
first 24 normalized hex characters. -/
def r24b : NRow := ⟨("0000000000000000000000000").toList, ("1F06AD2").toList, 0⟩

theorem C10_witness :
    ((decode_payload exRow).headD default).distanceMm ≤ 65535 ∧
    decode_payload r24a = decode_payload r24b :=
  ⟨(C10_ranges.1 exRow _ (headD_mem _ (by decide))).1,
    C10_ranges.2 r24a r24b rfl rfl (by decide)⟩

end RainAnalyze
